import Mathlib

/-!
Verification of the tabular ETL pipeline of `tech-challenge-book-api`
(scripts/cleaning.py, scripts/transformation.py, scripts/utils.py,
scripts/feature_engineering.py, scripts/exploratory.py).

Dataframe cells are modelled as `Option ℚ` (numeric columns with nulls) or
`Option String` (text columns with nulls); polars' three-valued boolean
logic for expressions over nullable columns is modelled explicitly
(`kleeneAnd`, `kleeneOr`, comparisons returning `Option Bool`), and
`polars.filter` keeps exactly the rows whose mask is literally `true`.
-/

namespace BookETL

unseal Rat.mul Rat.add Rat.sub Rat.inv

/-- Kleene three-valued conjunction used by polars boolean expressions:
`null & false = false`, `null & true = null`. -/
def kleeneAnd : Option Bool → Option Bool → Option Bool
  | some false, _ => some false
  | _, some false => some false
  | some true, some true => some true
  | _, _ => none

/-- Kleene three-valued disjunction used by polars boolean expressions:
`null | true = true`, `null | false = null`. -/
def kleeneOr : Option Bool → Option Bool → Option Bool
  | some true, _ => some true
  | _, some true => some true
  | some false, some false => some false
  | _, _ => none

/-- Polars comparison `col >= lit`: null propagates. -/
def kleeneGe (v : Option ℚ) (bound : ℚ) : Option Bool :=
  v.map (fun x => decide (bound ≤ x))

/-- Polars comparison `col <= lit`: null propagates. -/
def kleeneLe (v : Option ℚ) (bound : ℚ) : Option Bool :=
  v.map (fun x => decide (x ≤ bound))

/-- Polars `col.is_null()`: never null itself. -/
def isNullExpr (v : Option ℚ) : Option Bool :=
  some v.isNone

/-- Polars `DataFrame.filter(mask)`: keeps exactly the rows whose mask value
is literally `true` (a null mask drops the row). -/
def polarsFilter (mask : Option ℚ → Option Bool) (col : List (Option ℚ)) :
    List (Option ℚ) :=
  col.filter (fun v => decide (mask v = some true))

/-- Non-null values of a column, in order (polars drops nulls before
computing quantiles, std, min, max). -/
def dropNulls (col : List (Option ℚ)) : List ℚ :=
  col.filterMap id

/-- `f64.round` for the nonnegative indices used by polars quantiles:
round half away from zero, i.e. `⌊x + 1/2⌋` for `x ≥ 0`. -/
def roundHalfUp (x : ℚ) : ℤ :=
  Rat.floor (x + 1 / 2)

/-- `Series.quantile(p)` with polars' default interpolation `"nearest"`:
sort the non-null values ascending and take the element at index
`round(p * (m - 1))` (`m` = number of non-null values); `none` when every
value is null. -/
def seriesQuantile (p : ℚ) (col : List (Option ℚ)) : Option ℚ :=
  let s := (dropNulls col).insertionSort (· ≤ ·)
  if s.isEmpty then none
  else s.get? (roundHalfUp (p * ((s.length : ℚ) - 1))).toNat

/-- The row-keeping mask of `FeatureEngineer.remove_outliers`:
`(col >= lower) & (col <= upper) | col.is_null()`. -/
def outlierMask (lower upper : ℚ) (v : Option ℚ) : Option Bool :=
  kleeneOr (kleeneAnd (kleeneGe v lower) (kleeneLe v upper)) (isNullExpr v)

/-- A configured outlier column as seen in one partition: absent from the
frame, present but with a non-numeric dtype (its raw cells kept as text),
or numeric with nulls. -/
inductive ColData where
  | absent : ColData
  | nonNumeric (cells : List String) : ColData
  | numeric (cells : List (Option ℚ)) : ColData
deriving DecidableEq

/-- `FeatureEngineer.remove_outliers` for one configured column: the column
is skipped (status `missing` / `non_numeric` / `no_quantiles` / `zero_iqr`,
no row removed) unless it is present and numeric in train with a nonzero
IQR; the test partition is filtered only when the column is present there
(the bounds come from train alone). -/
def remove_outliers (f : ℚ) (train test : ColData) : ColData × ColData :=
  match train with
  | ColData.absent => (train, test)
  | ColData.nonNumeric _ => (train, test)
  | ColData.numeric tcells =>
    match seriesQuantile (1/4) tcells, seriesQuantile (3/4) tcells with
    | some q1, some q3 =>
      if q3 - q1 = 0 then (train, test)
      else
        let lower := q1 - f * (q3 - q1)
        let upper := q3 + f * (q3 - q1)
        (ColData.numeric (polarsFilter (outlierMask lower upper) tcells),
         match test with
         | ColData.numeric scells =>
             ColData.numeric (polarsFilter (outlierMask lower upper) scells)
         | other => other)
    | _, _ => (train, test)

/-- The row-keeping predicate stated at spec level: a row survives outlier
filtering iff its value is null or lies within the closed interval
`[lower, upper]`. -/
def keepSpec (lower upper : ℚ) (v : Option ℚ) : Bool :=
  match v with
  | none => true
  | some x => decide (lower ≤ x ∧ x ≤ upper)

theorem roundHalfUp_mono {a b : ℚ} (h : a ≤ b) : roundHalfUp a ≤ roundHalfUp b := by
  unfold roundHalfUp
  refine Rat.le_floor.mpr (le_trans (Rat.le_floor.mp (le_refl _)) ?_)
  exact add_le_add_right h _

theorem seriesQuantile_mono {p1 p2 : ℚ} {col : List (Option ℚ)} {a b : ℚ}
    (hp : p1 ≤ p2) (h1 : seriesQuantile p1 col = some a)
    (h2 : seriesQuantile p2 col = some b) : a ≤ b := by
  unfold seriesQuantile at h1 h2
  set s := (dropNulls col).insertionSort (· ≤ ·) with hs
  by_cases hemp : s.isEmpty
  · rw [if_pos hemp] at h1
    exact absurd h1 (by simp)
  · rw [if_neg hemp] at h1
    rw [if_neg hemp] at h2
    have hne : s ≠ [] := by simpa using hemp
    have hlen : 1 ≤ s.length := List.length_pos.mpr hne
    have hmul : p1 * ((s.length : ℚ) - 1) ≤ p2 * ((s.length : ℚ) - 1) := by
      apply mul_le_mul_of_nonneg_right hp
      have : (1 : ℚ) ≤ (s.length : ℚ) := by exact_mod_cast hlen
      linarith
    have hidx : (roundHalfUp (p1 * ((s.length : ℚ) - 1))).toNat ≤
        (roundHalfUp (p2 * ((s.length : ℚ) - 1))).toNat :=
      Int.toNat_le_toNat (roundHalfUp_mono hmul)
    obtain ⟨ha, ha'⟩ := List.get?_eq_some.mp h1
    obtain ⟨hb, hb'⟩ := List.get?_eq_some.mp h2
    have hsorted : s.Sorted (· ≤ ·) := List.sorted_insertionSort _ _
    rw [← ha', ← hb']
    exact List.Sorted.rel_get_of_le hsorted hidx

theorem outlierMask_eq_keepSpec (lower upper : ℚ) (v : Option ℚ) :
    decide (outlierMask lower upper v = some true) = keepSpec lower upper v := by
  cases v with
  | none => rfl
  | some x =>
    simp only [outlierMask, kleeneGe, kleeneLe, isNullExpr, Option.map_some,
      Option.isNone_some, keepSpec]
    by_cases h1 : lower ≤ x <;> by_cases h2 : x ≤ upper <;>
      simp [h1, h2, kleeneAnd, kleeneOr]

/-- C1. For every configured outlier column that is present and numeric in
the train partition and has nonzero interquartile range, outlier removal
computes Q1, Q3 and IQR on the train partition only, sets
`lower = Q1 - f*IQR` and `upper = Q3 + f*IQR`, keeps exactly the rows whose
value is within `[lower, upper]` or null in both train and test (a value
exactly equal to `lower` or `upper` is retained), and when the column is
missing, non-numeric, or has zero IQR, no row is removed from either
partition. -/
theorem remove_outliers_spec (f q1 q3 : ℚ) (train test : List (Option ℚ))
    (hf : 0 ≤ f)
    (hq1 : seriesQuantile (1/4) train = some q1)
    (hq3 : seriesQuantile (3/4) train = some q3)
    (hiqr : q3 - q1 ≠ 0) :
    (remove_outliers f (ColData.numeric train) (ColData.numeric test) =
      (ColData.numeric
         (train.filter (keepSpec (q1 - f * (q3 - q1)) (q3 + f * (q3 - q1)))),
       ColData.numeric
         (test.filter (keepSpec (q1 - f * (q3 - q1)) (q3 + f * (q3 - q1)))))) ∧
    (∀ lower upper : ℚ, ∀ v : Option ℚ,
       keepSpec lower upper v = true ↔
         v = none ∨ ∃ x, v = some x ∧ lower ≤ x ∧ x ≤ upper) ∧
    (keepSpec (q1 - f * (q3 - q1)) (q3 + f * (q3 - q1))
       (some (q1 - f * (q3 - q1))) = true) ∧
    (keepSpec (q1 - f * (q3 - q1)) (q3 + f * (q3 - q1))
       (some (q3 + f * (q3 - q1))) = true) ∧
    (∀ (g : ℚ) (te : ColData), remove_outliers g ColData.absent te =
       (ColData.absent, te)) ∧
    (∀ (g : ℚ) (cells : List String) (te : ColData),
       remove_outliers g (ColData.nonNumeric cells) te =
         (ColData.nonNumeric cells, te)) ∧
    (∀ (g q : ℚ) (tr : List (Option ℚ)) (te : ColData),
       seriesQuantile (1/4) tr = some q → seriesQuantile (3/4) tr = some q →
       remove_outliers g (ColData.numeric tr) te = (ColData.numeric tr, te)) := by
  refine ⟨?_, ?_, ?_, ?_, ?_, ?_, ?_⟩
  · have hfilter : ∀ col : List (Option ℚ),
        polarsFilter (outlierMask (q1 - f * (q3 - q1)) (q3 + f * (q3 - q1))) col =
          col.filter (keepSpec (q1 - f * (q3 - q1)) (q3 + f * (q3 - q1))) := by
      intro col
      unfold polarsFilter
      exact List.filter_congr (fun v _ => outlierMask_eq_keepSpec _ _ v)
    simp only [remove_outliers, hq1, hq3, if_neg hiqr, hfilter]
  · intro lower upper v
    cases v with
    | none => simp [keepSpec]
    | some x =>
      simp only [keepSpec, decide_eq_true_eq]
      constructor
      · intro h
        exact Or.inr ⟨x, rfl, h⟩
      · rintro (h | ⟨y, hy, h⟩)
        · exact absurd h (by simp)
        · exact Option.some_inj.mp hy ▸ h
  · have hq13 : q1 ≤ q3 := seriesQuantile_mono (by norm_num) hq1 hq3
    have hfq : 0 ≤ f * (q3 - q1) := mul_nonneg hf (by linarith)
    simp only [keepSpec, decide_eq_true_eq]
    exact ⟨le_refl _, by linarith⟩
  · have hq13 : q1 ≤ q3 := seriesQuantile_mono (by norm_num) hq1 hq3
    have hfq : 0 ≤ f * (q3 - q1) := mul_nonneg hf (by linarith)
    simp only [keepSpec, decide_eq_true_eq]
    exact ⟨by linarith, le_refl _⟩
  · intro g te; rfl
  · intro g cells te; rfl
  · intro g q tr te h1 h3
    unfold remove_outliers
    dsimp only
    rw [h1, h3]
    dsimp only
    simp

/-- Witness for C1 at a concrete input: train quartiles Q1 = 11, Q3 = 14,
factor 1.5, bounds [6.5, 18.5]; the train value 1000 is removed. -/
theorem remove_outliers_spec_witness :
    (remove_outliers (3/2)
        (ColData.numeric [some 10, some 11, some 12, some 13, some 14, some 1000])
        (ColData.numeric [some 12, none, some 1000]) =
      (ColData.numeric
         (([some 10, some 11, some 12, some 13, some 14, some 1000] :
             List (Option ℚ)).filter
           (keepSpec (11 - (3/2) * (14 - 11)) (14 + (3/2) * (14 - 11)))),
       ColData.numeric
         (([some 12, none, some 1000] : List (Option ℚ)).filter
           (keepSpec (11 - (3/2) * (14 - 11)) (14 + (3/2) * (14 - 11)))))) ∧
    (∀ lower upper : ℚ, ∀ v : Option ℚ,
       keepSpec lower upper v = true ↔
         v = none ∨ ∃ x, v = some x ∧ lower ≤ x ∧ x ≤ upper) ∧
    (keepSpec (11 - (3/2) * (14 - 11)) (14 + (3/2) * (14 - 11))
       (some (11 - (3/2) * (14 - 11))) = true) ∧
    (keepSpec (11 - (3/2) * (14 - 11)) (14 + (3/2) * (14 - 11))
       (some (14 + (3/2) * (14 - 11))) = true) ∧
    (∀ (g : ℚ) (te : ColData), remove_outliers g ColData.absent te =
       (ColData.absent, te)) ∧
    (∀ (g : ℚ) (cells : List String) (te : ColData),
       remove_outliers g (ColData.nonNumeric cells) te =
         (ColData.nonNumeric cells, te)) ∧
    (∀ (g q : ℚ) (tr : List (Option ℚ)) (te : ColData),
       seriesQuantile (1/4) tr = some q → seriesQuantile (3/4) tr = some q →
       remove_outliers g (ColData.numeric tr) te = (ColData.numeric tr, te)) :=
  remove_outliers_spec (3/2) 11 14
    [some 10, some 11, some 12, some 13, some 14, some 1000]
    [some 12, none, some 1000]
    (by norm_num) (by decide) (by decide) (by decide)

/-! ### `NumericProcessor.parse_price` (scripts/utils.py) -/

/-- Characters surviving the cleanup `re.sub(r"[^0-9,\.]", "", ...)` of
`NumericProcessor.parse_price`: ASCII digits, comma, period.  (The earlier
whitespace removals are subsumed by this regex.) -/
def keepChar (c : Char) : Bool :=
  c.isDigit || decide (c = ',') || decide (c = '.')

/-- Numeric value of a list of ASCII digits, most significant first. -/
def digitsVal (l : List Char) : ℕ :=
  l.foldl (fun a c => 10 * a + (c.toNat - '0'.toNat)) 0

/-- Python `float(str)` restricted to the strings `parse_price` hands to it
(after cleanup the string holds only digits and periods): defined iff there
is at most one period and at least one digit; `"5."` is `5.0` and `".5"` is
`0.5`. -/
def pyFloat (l : List Char) : Option ℚ :=
  if ¬ (l.all fun c => c.isDigit || decide (c = '.')) then none
  else if (l.filter fun c => decide (c = '.')).length = 0 then
    if l.isEmpty then none else some (digitsVal l)
  else if (l.filter fun c => decide (c = '.')).length = 1 then
    let i := l.indexOf '.'
    let intPart := l.take i
    let fracPart := l.drop (i + 1)
    if intPart.isEmpty && fracPart.isEmpty then none
    else some ((digitsVal intPart : ℚ) + (digitsVal fracPart : ℚ) / (10 : ℚ) ^ fracPart.length)
  else none

/-- The comma-to-period substitution `cleaned.replace(",", ".")`. -/
def commaToDot (c : Char) : Char :=
  if c = ',' then '.' else c

/-- `NumericProcessor.parse_price` on a string input: strip everything but
digits, commas and periods; empty result is null; when both a comma and a
period remain, periods are removed only if the first comma comes after the
first period (`cleaned.find(",") > cleaned.find(".")`), and then every
comma becomes a period; with only commas present every comma becomes a
period; finally Python `float` parses the result, `None` on failure. -/
def parse_price (s : String) : Option ℚ :=
  let cleaned := s.toList.filter keepChar
  if cleaned.isEmpty then none
  else
    let step :=
      if ',' ∈ cleaned ∧ '.' ∈ cleaned then
        (if cleaned.indexOf '.' < cleaned.indexOf ',' then
            cleaned.filter (fun c => decide (c ≠ '.'))
          else cleaned).map commaToDot
      else if ',' ∈ cleaned then cleaned.map commaToDot
      else cleaned
    pyFloat step

theorem map_commaToDot_of_no_comma {l : List Char} (h : ',' ∉ l) :
    l.map commaToDot = l := by
  induction l with
  | nil => rfl
  | cons c t ih =>
    have hc : c ≠ ',' := fun hc => h (hc ▸ List.mem_cons_self c t)
    have ht : ',' ∉ t := fun ht => h (List.mem_cons_of_mem c ht)
    simp [commaToDot, hc, ih ht]

theorem two_le_countP {p : Char → Bool} {l : List Char} {x y : Char}
    (hx : x ∈ l) (hy : y ∈ l) (hxy : x ≠ y)
    (hpx : p x = true) (hpy : p y = true) : 2 ≤ l.countP p := by
  induction l with
  | nil => simp at hx
  | cons c t ih =>
    rcases List.mem_cons.mp hx with hxc | hxt
    · have hyt : y ∈ t := by
        rcases List.mem_cons.mp hy with hyc | hyt
        · exact absurd (hyc.trans hxc.symm).symm hxy
        · exact hyt
      have h1 : 0 < t.countP p := List.countP_pos_iff.mpr ⟨y, hyt, hpy⟩
      have hpc : p c = true := by rw [← hxc] ; exact hpx
      rw [List.countP_cons, hpc, if_pos rfl]
      omega
    · rcases List.mem_cons.mp hy with hyc | hyt
      · have h1 : 0 < t.countP p := List.countP_pos_iff.mpr ⟨x, hxt, hpx⟩
        have hpc : p c = true := by rw [← hyc] ; exact hpy
        rw [List.countP_cons, hpc, if_pos rfl]
        omega
      · have h2 := ih hxt hyt
        rw [List.countP_cons]
        omega

theorem pyFloat_decimal (intPart fracPart : List Char)
    (hi : ∀ c ∈ intPart, c.isDigit = true)
    (hf : ∀ c ∈ fracPart, c.isDigit = true)
    (hne : fracPart ≠ []) :
    pyFloat (intPart ++ '.' :: fracPart) =
      some ((digitsVal intPart : ℚ) +
        (digitsVal fracPart : ℚ) / (10 : ℚ) ^ fracPart.length) := by
  have hdotNotDigit : ('.' : Char).isDigit = false := by decide
  have hiNotDot : ∀ c ∈ intPart, decide (c = '.') = false := by
    intro c hc
    have := hi c hc
    simp only [decide_eq_false_iff_not]
    intro h
    rw [h] at this
    simp [hdotNotDigit] at this
  have hfNotDot : ∀ c ∈ fracPart, decide (c = '.') = false := by
    intro c hc
    have := hf c hc
    simp only [decide_eq_false_iff_not]
    intro h
    rw [h] at this
    simp [hdotNotDigit] at this
  have hall : (intPart ++ '.' :: fracPart).all
      (fun c => c.isDigit || decide (c = '.')) = true := by
    rw [List.all_eq_true]
    intro c hc
    rcases List.mem_append.mp hc with h | h
    · simp [hi c h]
    · rcases List.mem_cons.mp h with h | h
      · simp [h]
      · simp [hf c h]
  have hfilterInt : intPart.filter (fun c => decide (c = '.')) = [] :=
    List.filter_eq_nil_iff.mpr (fun c hc => by simp [hiNotDot c hc])
  have hfilterFrac : fracPart.filter (fun c => decide (c = '.')) = [] :=
    List.filter_eq_nil_iff.mpr (fun c hc => by simp [hfNotDot c hc])
  have hcount : ((intPart ++ '.' :: fracPart).filter
      (fun c => decide (c = '.'))).length = 1 := by
    rw [List.filter_append, hfilterInt, List.filter_cons]
    simp [hfilterFrac]
  have hIntNoDot : '.' ∉ intPart := by
    intro h
    have := hiNotDot '.' h
    simp at this
  have hidx : (intPart ++ '.' :: fracPart).indexOf '.' = intPart.length := by
    rw [List.indexOf_append_of_not_mem hIntNoDot, List.indexOf_cons_self]
    omega
  have htake : (intPart ++ '.' :: fracPart).take intPart.length = intPart :=
    List.take_left intPart _
  have hdrop : (intPart ++ '.' :: fracPart).drop (intPart.length + 1) = fracPart := by
    have : intPart ++ '.' :: fracPart = (intPart ++ ['.']) ++ fracPart := by simp
    rw [this]
    have hlen : intPart.length + 1 = (intPart ++ ['.']).length := by simp
    rw [hlen]
    exact List.drop_left _ _
  unfold pyFloat
  rw [if_neg (by simp [hall])]
  rw [if_neg (by rw [hcount] ; exact one_ne_zero)]
  rw [if_pos hcount]
  rw [hidx]
  simp only [htake, hdrop]
  rw [if_neg (by simp [List.isEmpty_iff, hne])]

/-- C2 counterexample. In `"1,234.56"` the period occurs later than the
comma, so by the claim the period would be the decimal separator and the
comma a removed thousands separator, giving 1234.56; the code instead
replaces the comma by a period, producing the unparseable `"1.234.56"`,
and returns null. -/
theorem parse_price_period_later_counterexample :
    parse_price "1,234.56" = none ∧
    (none : Option ℚ) ≠ some ((123456 : ℚ) / 100) := by
  constructor
  · decide
  · decide

/-- C2 (amended). Currency symbols and whitespace are stripped and
unparseable values become null.  When the cleaned string splits as
`a ++ "," ++ b` with the comma after every period (`a` made of digits and
periods, `b` nonempty digits, no further comma), the comma is the decimal
separator and the earlier periods are removed thousands separators:
the value is `digits(a) . b`.  But when both symbols occur with the period
later, the comma is replaced (not removed) and the result is null, not a
period-decimal parse.  The spec examples `"R$ 10,99" ↦ 10.99` and
`"12.50" ↦ 12.50` hold. -/
theorem parse_price_amended :
    (∀ (s : String) (a b : List Char),
       s.toList.filter keepChar = a ++ ',' :: b →
       ',' ∉ a → ',' ∉ b → '.' ∉ b → b ≠ [] →
       (∀ c ∈ a, c.isDigit = true ∨ c = '.') →
       (∀ c ∈ b, c.isDigit = true) →
       parse_price s = some ((digitsVal (a.filter Char.isDigit) : ℚ) +
         (digitsVal b : ℚ) / (10 : ℚ) ^ b.length)) ∧
    (∀ s : String,
       ',' ∈ s.toList.filter keepChar →
       '.' ∈ s.toList.filter keepChar →
       (s.toList.filter keepChar).indexOf ',' <
         (s.toList.filter keepChar).indexOf '.' →
       parse_price s = none) ∧
    parse_price "R$ 10,99" = some ((1099 : ℚ) / 100) ∧
    parse_price "12.50" = some ((25 : ℚ) / 2) := by
  refine ⟨?_, ?_, by decide, by decide⟩
  · intro s a b hdec hca hcb hdb hbne hda hdbd
    have hbd : ∀ c ∈ b, decide (c ≠ '.') = c.isDigit := by
      intro c hc
      have h1 : c.isDigit = true := hdbd c hc
      have h2 : c ≠ '.' := fun h => hdb (h ▸ hc)
      simp [h1, h2]
    have hbfilter : b.filter (fun c => decide (c ≠ '.')) = b := by
      rw [List.filter_congr hbd]
      exact List.filter_eq_self.mpr hdbd
    have hmemc : ',' ∈ s.toList.filter keepChar := by
      rw [hdec]
      exact List.mem_append_right a (List.mem_cons_self ',' b)
    have hnonempty : (s.toList.filter keepChar).isEmpty = false := by
      rw [hdec]
      cases a <;> simp
    unfold parse_price
    dsimp only
    rw [hnonempty]
    simp only [Bool.false_eq_true, if_false]
    by_cases hdot : '.' ∈ a
    · have hmemd : '.' ∈ s.toList.filter keepChar := by
        rw [hdec]
        exact List.mem_append_left _ hdot
      rw [if_pos ⟨hmemc, hmemd⟩]
      have hidxc : (s.toList.filter keepChar).indexOf ',' = a.length := by
        rw [hdec, List.indexOf_append_of_not_mem hca, List.indexOf_cons_self]
        omega
      have hidxd : (s.toList.filter keepChar).indexOf '.' < a.length := by
        rw [hdec, List.indexOf_append_of_mem hdot]
        exact List.indexOf_lt_length.mpr hdot
      rw [if_pos (by omega : (s.toList.filter keepChar).indexOf '.' <
        (s.toList.filter keepChar).indexOf ',')]
      have hstep : ((a ++ ',' :: b).filter (fun c => decide (c ≠ '.'))).map commaToDot =
          (a.filter (fun c => decide (c ≠ '.'))) ++ '.' :: b := by
        rw [List.filter_append, List.filter_cons_of_pos (by decide), hbfilter,
            List.map_append, List.map_cons,
            map_commaToDot_of_no_comma (fun hmem => hca (List.mem_of_mem_filter hmem)),
            map_commaToDot_of_no_comma hcb]
        rfl
      rw [hdec, hstep]
      have hafilter : a.filter (fun c => decide (c ≠ '.')) = a.filter Char.isDigit := by
        apply List.filter_congr
        intro c hc
        rcases hda c hc with h | h
        · have hne : c ≠ '.' := by
            intro hh
            rw [hh] at h
            exact absurd h (by decide)
          simp [h, hne]
        · simp [h]
      rw [hafilter]
      exact pyFloat_decimal _ b (fun c hc => List.of_mem_filter hc) hdbd hbne
    · have hdall : ∀ c ∈ a, c.isDigit = true := by
        intro c hc
        rcases hda c hc with h | h
        · exact h
        · exact absurd (h ▸ hc) hdot
      have hnod : '.' ∉ s.toList.filter keepChar := by
        rw [hdec]
        intro hmem
        rcases List.mem_append.mp hmem with h | h
        · exact hdot h
        · rcases List.mem_cons.mp h with h | h
          · exact absurd h (by decide)
          · exact hdb h
      rw [if_neg (fun h => hnod h.2), if_pos hmemc]
      have hstep2 : (a ++ ',' :: b).map commaToDot = a ++ '.' :: b := by
        rw [List.map_append, List.map_cons, map_commaToDot_of_no_comma hca,
            map_commaToDot_of_no_comma hcb]
        rfl
      rw [hdec, hstep2]
      have hafilter : a.filter Char.isDigit = a := List.filter_eq_self.mpr hdall
      rw [hafilter]
      exact pyFloat_decimal a b hdall hdbd hbne
  · intro s hc hd hlt
    have hnonempty : (s.toList.filter keepChar).isEmpty = false := by
      have hne : s.toList.filter keepChar ≠ [] := List.ne_nil_of_mem hc
      simpa [List.isEmpty_iff] using hne
    unfold parse_price
    dsimp only
    rw [hnonempty]
    simp only [Bool.false_eq_true, if_false]
    rw [if_pos ⟨hc, hd⟩, if_neg (by omega)]
    set cl := s.toList.filter keepChar with hcl
    have hcount : 2 ≤ (cl.map commaToDot).countP (fun c => decide (c = '.')) := by
      rw [List.countP_map]
      refine two_le_countP hc hd (by decide) ?_ ?_
      · simp [Function.comp, commaToDot]
      · simp [Function.comp, commaToDot]
    have hlen : 2 ≤ ((cl.map commaToDot).filter (fun c => decide (c = '.'))).length := by
      rw [← List.countP_eq_length_filter]
      exact hcount
    unfold pyFloat
    by_cases hall : (cl.map commaToDot).all (fun c => c.isDigit || decide (c = '.')) = true
    · rw [if_neg (by simp [hall])]
      rw [if_neg (by omega), if_neg (by omega)]
    · rw [if_pos (by simpa using hall)]

/-- Witness for C2 (amended) at concrete inputs: `"R$ 1.234,56"` (comma
after the period: period removed as thousands separator, comma decimal)
parses to 1234.56, and `"7,77.7"` (period after the comma) parses to null. -/
theorem parse_price_amended_witness :
    parse_price "R$ 1.234,56" =
      some ((digitsVal (['1', '.', '2', '3', '4'].filter Char.isDigit) : ℚ) +
        (digitsVal ['5', '6'] : ℚ) / (10 : ℚ) ^ (['5', '6'] : List Char).length) ∧
    parse_price "7,77.7" = none :=
  ⟨parse_price_amended.1 "R$ 1.234,56" ['1', '.', '2', '3', '4'] ['5', '6']
      (by decide) (by decide) (by decide) (by decide) (by decide)
      (by decide) (by decide),
   parse_price_amended.2.1 "7,77.7" (by decide) (by decide) (by decide)⟩

/-! ### `IdGenerator.generate_unique_ids` (scripts/utils.py),
`DataTransformer.add_unique_id` (scripts/transformation.py) -/

/-- The pool `range(low, high + 1)` of all `digits`-digit integers,
`low = 10^(digits-1)`, `high = 10^digits - 1`. -/
def idPool (digits : ℕ) : List ℕ :=
  List.range' (10 ^ (digits - 1)) (10 ^ digits - 1 - 10 ^ (digits - 1) + 1)

/-- `IdGenerator.generate_unique_ids`: `random.sample(range(low, high+1),
count)` draws `count` distinct elements of the pool; the PRNG is modelled
by an arbitrary permutation `shuffle` of the pool, of which the first
`count` elements are returned.  Raises (`Except.error`) exactly when
`count` exceeds `capacity = high - low + 1`. -/
def generate_unique_ids (shuffle : List ℕ → List ℕ) (count digits : ℕ) :
    Except String (List ℕ) :=
  let low := 10 ^ (digits - 1)
  let high := 10 ^ digits - 1
  let capacity := high - low + 1
  if capacity < count then Except.error "CapacityExceeded"
  else Except.ok ((shuffle (idPool digits)).take count)

/-- `DataTransformer.add_unique_id`: generates IDs only when no `id` column
exists yet (`ID_DIGITS = 6`); otherwise the frame is left as is. -/
def add_unique_id (shuffle : List ℕ → List ℕ) (hasIdColumn : Bool) (rows : ℕ) :
    Except String (Option (List ℕ)) :=
  if hasIdColumn then Except.ok none
  else (generate_unique_ids shuffle rows 6).map some

/-- C3. For every input with n rows and no pre-existing ID column, synthetic
ID assignment produces n pairwise-distinct integers, each within
`[10^(D-1), 10^D - 1]` for the configured digit count D, and fails with a
CapacityExceeded error exactly when n exceeds the size of that range
(`10^D - 10^(D-1)`). -/
theorem generate_unique_ids_spec (shuffle : List ℕ → List ℕ) (count digits : ℕ)
    (hdig : 1 ≤ digits) (hshuffle : ∀ l, (shuffle l).Perm l) :
    ((∃ e, generate_unique_ids shuffle count digits = Except.error e) ↔
       10 ^ digits - 10 ^ (digits - 1) < count) ∧
    (∀ ids, generate_unique_ids shuffle count digits = Except.ok ids →
       ids.length = count ∧ ids.Nodup ∧
       ∀ i ∈ ids, 10 ^ (digits - 1) ≤ i ∧ i ≤ 10 ^ digits - 1) := by
  have hlow_pos : 1 ≤ 10 ^ (digits - 1) := Nat.one_le_pow _ _ (by omega)
  have hlt : 10 ^ (digits - 1) < 10 ^ digits := by
    apply Nat.pow_lt_pow_right (by omega)
    omega
  have hcap : 10 ^ digits - 1 - 10 ^ (digits - 1) + 1 =
      10 ^ digits - 10 ^ (digits - 1) := by omega
  constructor
  · constructor
    · rintro ⟨e, he⟩
      unfold generate_unique_ids at he
      by_cases hc : 10 ^ digits - 1 - 10 ^ (digits - 1) + 1 < count
      · omega
      · rw [if_neg hc] at he
        exact absurd he (by simp)
    · intro h
      refine ⟨"CapacityExceeded", ?_⟩
      unfold generate_unique_ids
      rw [if_pos (by omega)]
  · intro ids hids
    unfold generate_unique_ids at hids
    by_cases hc : 10 ^ digits - 1 - 10 ^ (digits - 1) + 1 < count
    · rw [if_pos hc] at hids
      exact absurd hids (by simp)
    · rw [if_neg hc] at hids
      have hids' : (shuffle (idPool digits)).take count = ids := by
        injection hids
      have hperm : (shuffle (idPool digits)).Perm (idPool digits) := hshuffle _
      have hpoollen : (idPool digits).length = 10 ^ digits - 1 - 10 ^ (digits - 1) + 1 :=
        List.length_range' _ _ _
      have hlen : ids.length = count := by
        rw [← hids', List.length_take, hperm.length_eq, hpoollen]
        omega
      have hpoolnodup : (idPool digits).Nodup := by
        unfold idPool
        exact List.nodup_range' _ _
      have hnodup : ids.Nodup := by
        rw [← hids']
        exact (hperm.nodup_iff.mpr hpoolnodup).sublist (List.take_sublist _ _)
      refine ⟨hlen, hnodup, ?_⟩
      intro i hi
      have hmem : i ∈ idPool digits := by
        have h1 : i ∈ shuffle (idPool digits) :=
          (List.take_sublist _ _).mem (hids' ▸ hi)
        exact hperm.mem_iff.mp h1
      unfold idPool at hmem
      rw [List.mem_range'_1] at hmem
      omega

/-- Witness for C3 at digits = 2, count = 3, identity shuffle: three
distinct two-digit IDs, and the error condition is `90 < count`. -/
theorem generate_unique_ids_spec_witness :
    ((∃ e, generate_unique_ids id 3 2 = Except.error e) ↔
       10 ^ 2 - 10 ^ (2 - 1) < 3) ∧
    (∀ ids, generate_unique_ids id 3 2 = Except.ok ids →
       ids.length = 3 ∧ ids.Nodup ∧
       ∀ i ∈ ids, 10 ^ (2 - 1) ≤ i ∧ i ≤ 10 ^ 2 - 1) :=
  generate_unique_ids_spec id 3 2 (by decide) (fun l => List.Perm.refl l)

/-! ### `DataCleaner.remove_duplicates` (scripts/cleaning.py) -/

/-- A dataframe cell value: numeric, text, or boolean (CSV-inferred). -/
inductive Value where
  | vnum (q : ℚ) : Value
  | vstr (s : String) : Value
  | vbool (b : Bool) : Value
deriving DecidableEq

/-- A row-oriented frame: column names plus rows of nullable cells, each
row indexed consistently with `cols`. -/
structure RFrame where
  cols : List String
  rows : List (List (Option Value))
deriving DecidableEq

/-- `configs.BOOKS_REQUIRED_COLUMNS`. -/
def BOOKS_REQUIRED_COLUMNS : List String :=
  ["title", "price", "rating", "availability", "category", "image",
   "product_page", "stock", "image_base64"]

/-- Cell of a row at a named column (null when the column is absent). -/
def cellAt (cols : List String) (row : List (Option Value)) (c : String) :
    Option Value :=
  row.getD (cols.indexOf c) none

/-- The deduplication subset of `remove_duplicates`: the values of the
required columns that are present in the frame, in required-column order
(`subset = [c for c in REQUIRED_COLUMNS if c in df.columns]`). -/
def dedupKey (required cols : List String) (row : List (Option Value)) :
    List (Option Value) :=
  (required.filter (fun c => decide (c ∈ cols))).map (cellAt cols row)

/-- Keep-first deduplication: scan rows in order, keeping a row iff its key
was not seen before. -/
def dedupFirstAux (key : List (Option Value) → List (Option Value))
    (seen : List (List (Option Value))) :
    List (List (Option Value)) → List (List (Option Value))
  | [] => []
  | r :: rs =>
    if key r ∈ seen then dedupFirstAux key seen rs
    else r :: dedupFirstAux key (key r :: seen) rs

/-- The order-preserving keep-first deduplication of a row list. -/
def dedupFirst (key : List (Option Value) → List (Option Value))
    (rows : List (List (Option Value))) : List (List (Option Value)) :=
  dedupFirstAux key [] rows

/-- `df.unique(subset=subset, keep="first")` as called by
`remove_duplicates` — without `maintain_order=True`, so polars guarantees
which rows survive (the first of each key group) but not their order: the
output rows are some permutation of the order-preserving keep-first list. -/
def uniqueKeepFirst (required : List String) (df out : RFrame) : Prop :=
  out.cols = df.cols ∧
  out.rows.Perm (dedupFirst (dedupKey required df.cols) df.rows)

theorem dedupFirstAux_mem {key : List (Option Value) → List (Option Value)}
    {rows : List (List (Option Value))} :
    ∀ {seen r}, r ∈ dedupFirstAux key seen rows →
      key r ∉ seen ∧ ∃ pre suf, rows = pre ++ r :: suf ∧
        ∀ p ∈ pre, key p ∈ seen ∨ key p ≠ key r := by
  induction rows with
  | nil => intro seen r h; exact absurd h (by simp [dedupFirstAux])
  | cons x rs ih =>
    intro seen r h
    unfold dedupFirstAux at h
    by_cases hx : key x ∈ seen
    · rw [if_pos hx] at h
      obtain ⟨hnot, pre, suf, heq, hpre⟩ := ih h
      refine ⟨hnot, x :: pre, suf, by rw [heq] ; rfl, ?_⟩
      intro p hp
      rcases List.mem_cons.mp hp with hpx | hpp
      · subst hpx
        exact Or.inl hx
      · exact hpre p hpp
    · rw [if_neg hx] at h
      rcases List.mem_cons.mp h with hrx | hrt
      · subst hrx
        exact ⟨hx, [], rs, rfl, by simp⟩
      · obtain ⟨hnot, pre, suf, heq, hpre⟩ := ih hrt
        have hnotseen : key r ∉ seen := fun hc =>
          hnot (List.mem_cons_of_mem _ hc)
        have hne : key x ≠ key r := fun hc =>
          hnot (hc ▸ List.mem_cons_self _ _)
        refine ⟨hnotseen, x :: pre, suf, by rw [heq] ; rfl, ?_⟩
        intro p hp
        rcases List.mem_cons.mp hp with hpx | hpp
        · subst hpx
          exact Or.inr hne
        · rcases hpre p hpp with hl | hr
          · rcases List.mem_cons.mp hl with h1 | h2
            · exact Or.inr (h1 ▸ hne)
            · exact Or.inl h2
          · exact Or.inr hr

theorem dedupFirstAux_keys_nodup {key : List (Option Value) → List (Option Value)}
    {rows : List (List (Option Value))} :
    ∀ seen, ((dedupFirstAux key seen rows).map key).Nodup ∧
      ∀ k ∈ (dedupFirstAux key seen rows).map key, k ∉ seen := by
  induction rows with
  | nil => intro seen; simp [dedupFirstAux]
  | cons x rs ih =>
    intro seen
    unfold dedupFirstAux
    by_cases hx : key x ∈ seen
    · rw [if_pos hx]
      exact ih seen
    · rw [if_neg hx]
      obtain ⟨hnd, hseen⟩ := ih (key x :: seen)
      constructor
      · rw [List.map_cons, List.nodup_cons]
        refine ⟨fun hc => ?_, hnd⟩
        exact hseen _ hc (List.mem_cons_self _ _)
      · intro k hk
        rcases List.mem_cons.mp hk with h1 | h2
        · exact h1 ▸ hx
        · intro hc
          exact hseen k h2 (List.mem_cons_of_mem _ hc)

theorem dedupFirstAux_covers {key : List (Option Value) → List (Option Value)}
    {rows : List (List (Option Value))} :
    ∀ seen {r}, r ∈ rows → key r ∈ seen ∨
      ∃ r' ∈ dedupFirstAux key seen rows, key r' = key r := by
  induction rows with
  | nil => intro seen r h; exact absurd h (by simp)
  | cons x rs ih =>
    intro seen r h
    unfold dedupFirstAux
    by_cases hx : key x ∈ seen
    · rw [if_pos hx]
      rcases List.mem_cons.mp h with hrx | hrt
      · exact Or.inl (hrx ▸ hx)
      · exact ih seen hrt
    · rw [if_neg hx]
      rcases List.mem_cons.mp h with hrx | hrt
      · exact Or.inr ⟨x, List.mem_cons_self _ _, (hrx ▸ rfl)⟩
      · rcases ih (key x :: seen) hrt with hl | ⟨r', hr', hkey⟩
        · rcases List.mem_cons.mp hl with h1 | h2
          · exact Or.inr ⟨x, List.mem_cons_self _ _, h1.symm⟩
          · exact Or.inl h2
        · exact Or.inr ⟨r', List.mem_cons_of_mem _ hr', hkey⟩

/-- C4 counterexample. `remove_duplicates` calls
`df.unique(subset=subset, keep="first")` without `maintain_order=True`, so
polars does not guarantee output row order: for the two-row frame with
distinct titles, the reversed output is a legal result of the call, and it
is not an order-preserving subsequence of the input. -/
theorem remove_duplicates_order_counterexample :
    uniqueKeepFirst BOOKS_REQUIRED_COLUMNS
      ⟨["title"], [[some (Value.vstr "a")], [some (Value.vstr "b")]]⟩
      ⟨["title"], [[some (Value.vstr "b")], [some (Value.vstr "a")]]⟩ ∧
    ¬ ([[some (Value.vstr "b")], [some (Value.vstr "a")]] :
        List (List (Option Value))).Sublist
      [[some (Value.vstr "a")], [some (Value.vstr "b")]] := by
  refine ⟨⟨rfl, ?_⟩, ?_⟩
  · have hd : dedupFirst (dedupKey BOOKS_REQUIRED_COLUMNS ["title"])
        [[some (Value.vstr "a")], [some (Value.vstr "b")]] =
        [[some (Value.vstr "a")], [some (Value.vstr "b")]] := by decide
    rw [hd]
    exact List.Perm.swap _ _ _
  · decide

/-- C4 (amended). Two rows are duplicates exactly when they agree on every
required column present in the frame; the surviving rows are exactly the
first occurrence of each duplicate group (one survivor per key, covering
every key); but the relative order of the surviving rows is not
guaranteed — the output is some permutation of the order-preserving
keep-first list. -/
theorem remove_duplicates_amended (required : List String) (df out : RFrame)
    (h : uniqueKeepFirst required df out) :
    (∀ r1 r2 : List (Option Value),
       dedupKey required df.cols r1 = dedupKey required df.cols r2 ↔
       ∀ c ∈ required, c ∈ df.cols →
         cellAt df.cols r1 c = cellAt df.cols r2 c) ∧
    (∀ r ∈ out.rows, ∃ pre suf, df.rows = pre ++ r :: suf ∧
       ∀ p ∈ pre, dedupKey required df.cols p ≠ dedupKey required df.cols r) ∧
    (out.rows.map (dedupKey required df.cols)).Nodup ∧
    (∀ r ∈ df.rows, ∃ r' ∈ out.rows,
       dedupKey required df.cols r' = dedupKey required df.cols r) := by
  obtain ⟨hcols, hperm⟩ := h
  refine ⟨?_, ?_, ?_, ?_⟩
  · intro r1 r2
    unfold dedupKey
    rw [List.map_inj_left]
    constructor
    · intro hmap c hc hcc
      exact hmap c (List.mem_filter.mpr ⟨hc, by simpa using hcc⟩)
    · intro hcell c hc
      obtain ⟨hcr, hcc⟩ := List.mem_filter.mp hc
      exact hcell c hcr (by simpa using hcc)
  · intro r hr
    have hr' : r ∈ dedupFirst (dedupKey required df.cols) df.rows :=
      hperm.mem_iff.mp hr
    obtain ⟨-, pre, suf, heq, hpre⟩ := dedupFirstAux_mem hr'
    refine ⟨pre, suf, heq, ?_⟩
    intro p hp
    rcases hpre p hp with h1 | h2
    · exact absurd h1 (by simp)
    · exact h2
  · have h1 : ((dedupFirst (dedupKey required df.cols) df.rows).map
        (dedupKey required df.cols)).Nodup :=
      (dedupFirstAux_keys_nodup []).1
    exact ((hperm.map _).nodup_iff).mpr h1
  · intro r hr
    rcases dedupFirstAux_covers [] hr with h1 | ⟨r', hr', hkey⟩
    · exact absurd h1 (by simp)
    · exact ⟨r', hperm.mem_iff.mpr hr', hkey⟩

/-- Witness for C4 (amended) at a concrete two-row frame (identity
permutation of the keep-first list). -/
theorem remove_duplicates_amended_witness :
    (∀ r1 r2 : List (Option Value),
       dedupKey BOOKS_REQUIRED_COLUMNS ["title"] r1 =
         dedupKey BOOKS_REQUIRED_COLUMNS ["title"] r2 ↔
       ∀ c ∈ BOOKS_REQUIRED_COLUMNS, c ∈ (["title"] : List String) →
         cellAt ["title"] r1 c = cellAt ["title"] r2 c) ∧
    (∀ r ∈ ([[some (Value.vstr "a")], [some (Value.vstr "b")]] :
        List (List (Option Value))), ∃ pre suf,
       ([[some (Value.vstr "a")], [some (Value.vstr "b")]] :
         List (List (Option Value))) = pre ++ r :: suf ∧
       ∀ p ∈ pre, dedupKey BOOKS_REQUIRED_COLUMNS ["title"] p ≠
         dedupKey BOOKS_REQUIRED_COLUMNS ["title"] r) ∧
    (([[some (Value.vstr "a")], [some (Value.vstr "b")]] :
        List (List (Option Value))).map
      (dedupKey BOOKS_REQUIRED_COLUMNS ["title"])).Nodup ∧
    (∀ r ∈ ([[some (Value.vstr "a")], [some (Value.vstr "b")]] :
        List (List (Option Value))), ∃ r' ∈
        ([[some (Value.vstr "a")], [some (Value.vstr "b")]] :
          List (List (Option Value))),
       dedupKey BOOKS_REQUIRED_COLUMNS ["title"] r' =
         dedupKey BOOKS_REQUIRED_COLUMNS ["title"] r) :=
  remove_duplicates_amended BOOKS_REQUIRED_COLUMNS
    ⟨["title"], [[some (Value.vstr "a")], [some (Value.vstr "b")]]⟩
    ⟨["title"], [[some (Value.vstr "a")], [some (Value.vstr "b")]]⟩
    ⟨rfl, by
      have hd : dedupFirst (dedupKey BOOKS_REQUIRED_COLUMNS ["title"])
          [[some (Value.vstr "a")], [some (Value.vstr "b")]] =
          [[some (Value.vstr "a")], [some (Value.vstr "b")]] := by decide
      rw [hd]⟩

/-! ### `DataCleaner.handle_nulls`, `read_raw`, `run` (scripts/cleaning.py) -/

/-- Semantic column dtypes of the cleaner (`NUMERIC_DTYPES`, string-like
`Utf8`/`Categorical`, other). -/
inductive Dtype where
  | numeric : Dtype
  | string : Dtype
  | boolean : Dtype
deriving DecidableEq

/-- One column of a frame: name, dtype, nullable cells. -/
structure Column where
  name : String
  dtype : Dtype
  cells : List (Option Value)
deriving DecidableEq

/-- Numeric values of a column's non-null cells. -/
def numCells (cells : List (Option Value)) : List ℚ :=
  cells.filterMap (fun c => match c with
    | some (Value.vnum q) => some q
    | _ => none)

/-- polars `Series.median`: middle of the sorted non-null values for an odd
count, mean of the two middle values for an even count; `None` for an empty
series. -/
def seriesMedian (cells : List (Option Value)) : Option ℚ :=
  let s := (numCells cells).insertionSort (· ≤ ·)
  if s.isEmpty then none
  else if s.length % 2 = 1 then s.get? (s.length / 2)
  else
    match s.get? (s.length / 2 - 1), s.get? (s.length / 2) with
    | some a, some b => some ((a + b) / 2)
    | _, _ => none

/-- The fill value of `handle_nulls` for one column
(`NUMERIC_IMPUTATION_STRATEGY = "median"`, `UNKNOWN_FILL_VALUE =
"unknown"`): median for numeric dtypes, the constant string otherwise. -/
def imputeValue (col : Column) : Option Value :=
  match col.dtype with
  | Dtype.numeric => (seriesMedian col.cells).map Value.vnum
  | _ => some (Value.vstr "unknown")

/-- `series.null_count()`. -/
def nullCount (col : Column) : ℕ :=
  (col.cells.filter Option.isNone).length

/-- `handle_nulls` on one column (`NULL_THRESHOLD = 0.40`): untouched when
it has no nulls; dropped (`none`) when the null fraction reaches the
threshold; otherwise each null cell is replaced by the fill value
(`pl.when(col.is_null()).then(value).otherwise(col)`). -/
def handleNullsColumn (col : Column) : Option Column :=
  if nullCount col = 0 then some col
  else if (2/5 : ℚ) ≤ (nullCount col : ℚ) / (col.cells.length : ℚ) then none
  else some { col with cells := col.cells.map (fun c => if c.isNone then imputeValue col else c) }

/-- `DataCleaner.handle_nulls`: every column is dropped or imputed
independently, surviving columns in their original order. -/
def handle_nulls (df : List Column) : List Column :=
  df.filterMap handleNullsColumn

/-- `DataCleaner.read_raw`: raises `FileNotFoundError` when the raw file is
absent, else loads the frame. -/
def read_raw (input : Option (List Column)) : Except String (List Column) :=
  match input with
  | none => Except.error "FileNotFoundError"
  | some df => Except.ok df

/-- Row cross-sections of a column-oriented frame (`df.iter_rows`). -/
def frameRows (df : List Column) : List (List (Option Value)) :=
  (df.map Column.cells).transpose

/-- `DataCleaner.run`: read -> validate_columns (report-only) ->
handle_nulls -> remove_duplicates -> save.  No step checks the row count,
so a zero-row input flows through to a zero-row output.  The
`unique(keep="first")` call is represented by its order-preserving
keep-first representative; whether the run succeeds does not depend on
which permutation polars returns. -/
def DataCleaner_run (required : List String) (input : Option (List Column)) :
    Except String (List (List (Option Value))) :=
  match read_raw input with
  | Except.error e => Except.error e
  | Except.ok df =>
    let cleaned := handle_nulls df
    let names := cleaned.map Column.name
    Except.ok (dedupFirst (dedupKey required names) (frameRows cleaned))

/-- C7 counterexample. A present raw file with a `title` header and zero
rows: the cleaner run completes and returns the empty cleaned output — it
does not fail with any `EmptyInput` error (there is no zero-row check in
`DataCleaner.read_raw`, `handle_nulls`, `remove_duplicates` or `run`). -/
theorem cleaner_empty_input_counterexample :
    DataCleaner_run BOOKS_REQUIRED_COLUMNS
      (some [⟨"title", Dtype.string, []⟩]) = Except.ok [] := by
  rfl

/-- C7 (amended). The cleaner fails with `FileNotFoundError` exactly when
the raw source file is absent; a zero-row (or any) readable input never
makes the run fail — there is no `EmptyInput` failure in the cleaner. -/
theorem cleaner_errors_amended :
    (∀ required : List String,
       DataCleaner_run required none = Except.error "FileNotFoundError") ∧
    (∀ (required : List String) (df : List Column),
       ∃ out, DataCleaner_run required (some df) = Except.ok out) := by
  constructor
  · intro required
    rfl
  · intro required df
    exact ⟨_, rfl⟩

/-- C9. Null handling never changes the row count and never alters a
non-null cell: every output column comes from an input column via
`handleNullsColumn`; a column is dropped exactly when it has nulls at or
above the threshold; a surviving column keeps its name, dtype and length,
its non-null cells are unchanged in place, and its null cells hold the
imputed value. -/
theorem handle_nulls_spec (df : List Column) :
    (∀ col' ∈ handle_nulls df, ∃ col ∈ df, handleNullsColumn col = some col') ∧
    (∀ col ∈ df, (handleNullsColumn col = none ↔
       0 < nullCount col ∧
       (2/5 : ℚ) ≤ (nullCount col : ℚ) / (col.cells.length : ℚ))) ∧
    (∀ col col', handleNullsColumn col = some col' →
       col'.name = col.name ∧ col'.dtype = col.dtype ∧
       col'.cells.length = col.cells.length ∧
       (∀ i v, col.cells.get? i = some (some v) →
          col'.cells.get? i = some (some v)) ∧
       (∀ i, col.cells.get? i = some none →
          col'.cells.get? i = some (imputeValue col))) := by
  refine ⟨?_, ?_, ?_⟩
  · intro col' hc
    obtain ⟨col, hcol, heq⟩ := List.mem_filterMap.mp hc
    exact ⟨col, hcol, heq⟩
  · intro col _
    unfold handleNullsColumn
    by_cases h0 : nullCount col = 0
    · rw [if_pos h0]
      simp [h0]
    · rw [if_neg h0]
      by_cases hth : (2/5 : ℚ) ≤ (nullCount col : ℚ) / (col.cells.length : ℚ)
      · rw [if_pos hth]
        simp [hth]
        omega
      · rw [if_neg hth]
        simp [hth]
  · intro col col' heq
    unfold handleNullsColumn at heq
    by_cases h0 : nullCount col = 0
    · rw [if_pos h0] at heq
      have hcol : col' = col := by
        injection heq with h
        exact h.symm
      rw [hcol]
      refine ⟨rfl, rfl, rfl, fun i v h => h, ?_⟩
      intro i hi
      exfalso
      have hmem : (none : Option Value) ∈ col.cells := by
        have := List.get?_mem hi
        exact this
      have : 0 < nullCount col := by
        unfold nullCount
        have : (none : Option Value) ∈ col.cells.filter Option.isNone :=
          List.mem_filter.mpr ⟨hmem, rfl⟩
        exact List.length_pos.mpr (List.ne_nil_of_mem this)
      omega
    · rw [if_neg h0] at heq
      by_cases hth : (2/5 : ℚ) ≤ (nullCount col : ℚ) / (col.cells.length : ℚ)
      · rw [if_pos hth] at heq
        exact absurd heq (by simp)
      · rw [if_neg hth] at heq
        have hcol : col' = { col with cells := col.cells.map (fun c => if c.isNone then imputeValue col else c) } := by
          injection heq with h
          exact h.symm
        rw [hcol]
        refine ⟨rfl, rfl, by simp, ?_, ?_⟩
        · intro i v h
          rw [List.get?_map, h]
          rfl
        · intro i h
          rw [List.get?_map, h]
          rfl

/-- Witness for C9 at a concrete numeric column with one null out of three
cells (fraction 1/3 < 0.40): the column survives with the median 3 imputed
into the null cell and the two non-null cells untouched. -/
theorem handle_nulls_spec_witness :
    (⟨"rating", Dtype.numeric,
       [some (Value.vnum 4), some (Value.vnum 3), some (Value.vnum 2)]⟩ :
         Column).name =
      (⟨"rating", Dtype.numeric,
         [some (Value.vnum 4), none, some (Value.vnum 2)]⟩ : Column).name ∧
    (⟨"rating", Dtype.numeric,
       [some (Value.vnum 4), some (Value.vnum 3), some (Value.vnum 2)]⟩ :
         Column).dtype =
      (⟨"rating", Dtype.numeric,
         [some (Value.vnum 4), none, some (Value.vnum 2)]⟩ : Column).dtype ∧
    (⟨"rating", Dtype.numeric,
       [some (Value.vnum 4), some (Value.vnum 3), some (Value.vnum 2)]⟩ :
         Column).cells.length =
      (⟨"rating", Dtype.numeric,
         [some (Value.vnum 4), none, some (Value.vnum 2)]⟩ :
           Column).cells.length ∧
    (∀ i v, (⟨"rating", Dtype.numeric,
        [some (Value.vnum 4), none, some (Value.vnum 2)]⟩ :
          Column).cells.get? i = some (some v) →
      (⟨"rating", Dtype.numeric,
         [some (Value.vnum 4), some (Value.vnum 3), some (Value.vnum 2)]⟩ :
           Column).cells.get? i = some (some v)) ∧
    (∀ i, (⟨"rating", Dtype.numeric,
        [some (Value.vnum 4), none, some (Value.vnum 2)]⟩ :
          Column).cells.get? i = some none →
      (⟨"rating", Dtype.numeric,
         [some (Value.vnum 4), some (Value.vnum 3), some (Value.vnum 2)]⟩ :
           Column).cells.get? i =
        some (imputeValue ⟨"rating", Dtype.numeric,
          [some (Value.vnum 4), none, some (Value.vnum 2)]⟩)) :=
  (handle_nulls_spec [⟨"rating", Dtype.numeric,
      [some (Value.vnum 4), none, some (Value.vnum 2)]⟩]).2.2
    ⟨"rating", Dtype.numeric, [some (Value.vnum 4), none, some (Value.vnum 2)]⟩
    ⟨"rating", Dtype.numeric,
      [some (Value.vnum 4), some (Value.vnum 3), some (Value.vnum 2)]⟩
    (by decide)

/-! ### `FeatureEngineer.scale_price` (scripts/feature_engineering.py) -/

/-- `np.nanstd(values) == 0`: true iff there is at least one non-NaN value
and all non-NaN values are equal (the nanstd of an all-NaN column is NaN,
which is not zero). -/
def nanStdZero (col : List (Option ℚ)) : Bool :=
  match dropNulls col with
  | [] => false
  | x :: xs => xs.all (fun y => decide (y = x))

/-- The transform fit by `sklearn.MinMaxScaler` (feature range (0,1)) on a
train column with minimum `m` and maximum `M`. -/
def minmaxScale (m M x : ℚ) : ℚ :=
  (x - m) / (M - m)

/-- `FeatureEngineer.scale_price` on the configured price column: when the
train column's nanstd is zero the scaled column is all zeros for both
partitions (`np.zeros_like`, null positions included); otherwise
`MinMaxScaler` is fit on the train nanmin/nanmax and applied verbatim to
both partitions without clamping, nulls propagating. -/
def scale_price (train test : List (Option ℚ)) :
    List (Option ℚ) × List (Option ℚ) :=
  if nanStdZero train then
    (train.map (fun _ => some 0), test.map (fun _ => some 0))
  else
    match (dropNulls train).min?, (dropNulls train).max? with
    | some m, some M =>
      (train.map (Option.map (minmaxScale m M)),
       test.map (Option.map (minmaxScale m M)))
    | _, _ => (train.map (fun _ => none), test.map (fun _ => none))

/-- C5. For every train partition containing the configured price column:
zero train variance makes the scaled output all zeros for both partitions;
otherwise the scaled train minimum is exactly 0.0, the scaled train maximum
is exactly 1.0, every non-null scaled train value lies in [0,1], and test
values outside the train min/max are not clamped (they scale strictly
outside [0,1]); the same transform (fit on train) is applied to test. -/
theorem scale_price_spec (train test : List (Option ℚ)) (m M : ℚ)
    (hstd : nanStdZero train = false)
    (hm : (dropNulls train).min? = some m)
    (hM : (dropNulls train).max? = some M) :
    (scale_price train test =
      (train.map (Option.map (minmaxScale m M)),
       test.map (Option.map (minmaxScale m M)))) ∧
    minmaxScale m M m = 0 ∧
    minmaxScale m M M = 1 ∧
    (∀ x ∈ dropNulls train, 0 ≤ minmaxScale m M x ∧ minmaxScale m M x ≤ 1) ∧
    (∀ y : ℚ, M < y → 1 < minmaxScale m M y) ∧
    (∀ y : ℚ, y < m → minmaxScale m M y < 0) ∧
    (∀ tr te : List (Option ℚ), nanStdZero tr = true →
       scale_price tr te = (tr.map (fun _ => some 0), te.map (fun _ => some 0))) := by
  haveI hanti : Std.Antisymm ((· : ℚ) ≤ ·) := ⟨le_antisymm⟩
  have hmm := (List.min?_eq_some_iff (fun a => le_refl a)
    (fun a b => min_choice a b) (fun a b c => le_min_iff)).mp hm
  have hMM := (List.max?_eq_some_iff (fun a => le_refl a)
    (fun a b => max_choice a b) (fun a b c => max_le_iff)).mp hM
  obtain ⟨hmem_m, hmin⟩ := hmm
  obtain ⟨hmem_M, hmax⟩ := hMM
  have hlt : m < M := by
    rcases lt_or_eq_of_le (hmin M hmem_M) with h | h
    · exact h
    · exfalso
      have hallm : ∀ b ∈ dropNulls train, b = m := by
        intro b hb
        exact le_antisymm (h ▸ hmax b hb) (hmin b hb)
      have : nanStdZero train = true := by
        unfold nanStdZero
        cases hd : dropNulls train with
        | nil => rw [hd] at hmem_m ; exact absurd hmem_m (by simp)
        | cons x xs =>
          rw [List.all_eq_true]
          intro y hy
          have hx : x = m := hallm x (hd ▸ List.mem_cons_self _ _)
          have hy' : y = m := hallm y (hd ▸ List.mem_cons_of_mem _ hy)
          simp [hx, hy']
      rw [this] at hstd
      exact absurd hstd (by simp)
  have hpos : 0 < M - m := by linarith
  have hne : M - m ≠ 0 := ne_of_gt hpos
  refine ⟨?_, ?_, ?_, ?_, ?_, ?_, ?_⟩
  · unfold scale_price
    rw [hstd]
    simp only [Bool.false_eq_true, if_false]
    rw [hm, hM]
  · unfold minmaxScale
    rw [sub_self, zero_div]
  · unfold minmaxScale
    exact div_self hne
  · intro x hx
    unfold minmaxScale
    constructor
    · exact div_nonneg (by linarith [hmin x hx]) (le_of_lt hpos)
    · rw [div_le_one hpos]
      linarith [hmax x hx]
  · intro y hy
    unfold minmaxScale
    rw [lt_div_iff hpos]
    linarith
  · intro y hy
    unfold minmaxScale
    apply div_neg_of_neg_of_pos _ hpos
    linarith
  · intro tr te htr
    unfold scale_price
    rw [htr]
    simp

/-- Witness for C5: train [1, null, 3], test [5]; min 0 at 1, max 1 at 3,
the out-of-range test value 5 scales to 2 > 1 (no clamping). -/
theorem scale_price_spec_witness :
    (scale_price [some 1, none, some 3] [some 5] =
      ([some 1, none, some 3].map (Option.map (minmaxScale 1 3)),
       [some 5].map (Option.map (minmaxScale 1 3)))) ∧
    minmaxScale 1 3 1 = 0 ∧
    minmaxScale 1 3 3 = 1 ∧
    (∀ x ∈ dropNulls [some 1, none, some 3],
       0 ≤ minmaxScale 1 3 x ∧ minmaxScale 1 3 x ≤ 1) ∧
    (∀ y : ℚ, 3 < y → 1 < minmaxScale 1 3 y) ∧
    (∀ y : ℚ, y < 1 → minmaxScale 1 3 y < 0) ∧
    (∀ tr te : List (Option ℚ), nanStdZero tr = true →
       scale_price tr te = (tr.map (fun _ => some 0), te.map (fun _ => some 0))) :=
  scale_price_spec [some 1, none, some 3] [some 5] 1 3
    (by decide) (by decide) (by decide)

/-! ### `NumericProcessor.safe_correlation` (scripts/utils.py); the same
guard logic is inlined in `ExploratoryDataAnalysis.correlations`
(scripts/exploratory.py). -/

/-- The jointly non-null observations of two columns — the mask
`~np.isnan(arr1) & ~np.isnan(arr2)` applied to both arrays, kept as
pairs. -/
def jointNonNull (xs ys : List (Option ℚ)) : List (ℚ × ℚ) :=
  (xs.zip ys).filterMap (fun p =>
    match p with
    | (some a, some b) => some (a, b)
    | _ => none)

/-- `np.std(arr) == 0`: all entries of a non-empty array equal (the std of
an empty array is NaN, not zero). -/
def stdZero (l : List ℚ) : Bool :=
  match l with
  | [] => false
  | x :: xs => xs.all (fun y => decide (y = x))

/-- `NumericProcessor.safe_correlation`: with fewer than 2 joint
observations the result is undefined (`none`); with zero variance in
either masked column it is exactly 0.0; otherwise `np.corrcoef`, modelled
as an opaque parameter since the claim concerns only the guards. -/
def safe_correlation (corrcoef : List (ℚ × ℚ) → ℚ) (xs ys : List (Option ℚ)) :
    Option ℚ :=
  let pairs := jointNonNull xs ys
  if pairs.length < 2 then none
  else if stdZero (pairs.map Prod.fst) || stdZero (pairs.map Prod.snd) then
    some 0
  else some (corrcoef pairs)

theorem stdZero_of_const {l : List ℚ} (hne : l ≠ [])
    (h : ∀ a ∈ l, ∀ b ∈ l, a = b) : stdZero l = true := by
  cases l with
  | nil => exact absurd rfl hne
  | cons x xs =>
    unfold stdZero
    rw [List.all_eq_true]
    intro y hy
    simp [h y (List.mem_cons_of_mem _ hy) x (List.mem_cons_self _ _)]

/-- C6. For every pair of numeric columns compared by the correlation
computation: fewer than 2 jointly-non-null observations yield an undefined
(null) correlation; at least 2 jointly-non-null observations with either
column constant over those observations yield a defined correlation of
exactly 0.0 — regardless of what `np.corrcoef` would compute. -/
theorem safe_correlation_spec (corrcoef : List (ℚ × ℚ) → ℚ)
    (xs ys : List (Option ℚ)) :
    ((jointNonNull xs ys).length < 2 →
       safe_correlation corrcoef xs ys = none) ∧
    (2 ≤ (jointNonNull xs ys).length →
       ((∀ p ∈ jointNonNull xs ys, ∀ q ∈ jointNonNull xs ys, p.1 = q.1) ∨
        (∀ p ∈ jointNonNull xs ys, ∀ q ∈ jointNonNull xs ys, p.2 = q.2)) →
       safe_correlation corrcoef xs ys = some 0) := by
  constructor
  · intro h
    unfold safe_correlation
    rw [if_pos h]
  · intro hlen hconst
    have hne : jointNonNull xs ys ≠ [] := by
      intro hnil
      rw [hnil] at hlen
      simp at hlen
    have hz : stdZero ((jointNonNull xs ys).map Prod.fst) = true ∨
        stdZero ((jointNonNull xs ys).map Prod.snd) = true := by
      rcases hconst with h | h
      · refine Or.inl (stdZero_of_const (by simpa using hne) ?_)
        intro a ha b hb
        obtain ⟨p, hp, hpa⟩ := List.mem_map.mp ha
        obtain ⟨q, hq, hqb⟩ := List.mem_map.mp hb
        rw [← hpa, ← hqb]
        exact h p hp q hq
      · refine Or.inr (stdZero_of_const (by simpa using hne) ?_)
        intro a ha b hb
        obtain ⟨p, hp, hpa⟩ := List.mem_map.mp ha
        obtain ⟨q, hq, hqb⟩ := List.mem_map.mp hb
        rw [← hpa, ← hqb]
        exact h p hp q hq
    unfold safe_correlation
    rw [if_neg (by omega), if_pos (by
      rcases hz with h | h <;> simp [h])]

/-- Witness for C6: columns of joint length 1 give an undefined
correlation; a constant first column over 2 joint observations gives
exactly 0 (with an arbitrary stand-in for `np.corrcoef`). -/
theorem safe_correlation_spec_witness :
    safe_correlation (fun _ => 1) [some 1] [some 2] = none ∧
    safe_correlation (fun _ => 1) [some 1, some 1, none]
      [some 2, some 5, some 7] = some 0 :=
  ⟨(safe_correlation_spec (fun _ => 1) [some 1] [some 2]).1 (by decide),
   (safe_correlation_spec (fun _ => 1) [some 1, some 1, none]
       [some 2, some 5, some 7]).2 (by decide) (Or.inl (by decide))⟩

/-! ### `TextProcessor.normalize_text` (scripts/utils.py) -/

/-- The character class `[a-z0-9]` of the substitution regex, by ASCII
codepoint. -/
def isKeep (c : Char) : Bool :=
  (decide (97 ≤ c.toNat) && decide (c.toNat ≤ 122)) ||
  (decide (48 ≤ c.toNat) && decide (c.toNat ≤ 57))

/-- `re.sub(r"[^a-z0-9]+", "_", s)`: every maximal run of non-kept
characters becomes one underscore; `inRun` records whether the previous
character belonged to such a run. -/
def subRunsAux (inRun : Bool) : List Char → List Char
  | [] => []
  | c :: cs =>
    if isKeep c then c :: subRunsAux false cs
    else if inRun then subRunsAux true cs
    else '_' :: subRunsAux true cs

/-- `str.strip("_")`: drop underscores from both ends. -/
def stripUnderscores (l : List Char) : List Char :=
  (((l.dropWhile (fun c => decide (c = '_'))).reverse.dropWhile
    (fun c => decide (c = '_'))).reverse)

/-- `re.sub(r"__+", "_", s)`: collapse each run of underscores to a single
underscore (`prev` records whether the previous kept character was an
underscore). -/
def collapseAux (prev : Bool) : List Char → List Char
  | [] => []
  | c :: cs =>
    if c = '_' then
      if prev then collapseAux true cs else '_' :: collapseAux true cs
    else c :: collapseAux false cs

/-- `TextProcessor.normalize_text`: empty (or non-string) input gives "";
otherwise lowercase, replace non-alphanumeric runs by single underscores,
strip boundary underscores, collapse double underscores.  (`str.lower` is
modelled on ASCII via `Char.toLower`; non-ASCII letters are erased by the
substitution either way.) -/
def normalize_text (s : String) : String :=
  if s = "" then ""
  else String.mk (collapseAux false (stripUnderscores
    (subRunsAux false (s.toList.map Char.toLower))))

/-- The adjacency constraint of C8: no two consecutive underscores. -/
def notUU (a b : Char) : Prop :=
  ¬(a = '_' ∧ b = '_')

/-- Well-formedness of C8's output: only lowercase alphanumerics and
underscores, no leading or trailing underscore, no two adjacent
underscores. -/
def wfNormalized (l : List Char) : Prop :=
  (∀ c ∈ l, isKeep c = true ∨ c = '_') ∧
  (∀ c, l.head? = some c → c ≠ '_') ∧
  (∀ c, l.getLast? = some c → c ≠ '_') ∧
  l.Chain' notUU

theorem isKeep_underscore : isKeep '_' = false := by decide

theorem toLower_id_of_wfChar {c : Char} (h : isKeep c = true ∨ c = '_') :
    Char.toLower c = c := by
  unfold Char.toLower
  rw [if_neg]
  intro hc
  rcases h with h | h
  · unfold isKeep at h
    simp only [Bool.or_eq_true, Bool.and_eq_true, decide_eq_true_eq] at h
    omega
  · subst h
    revert hc
    decide

theorem subRunsAux_alpha {l : List Char} :
    ∀ {b c}, c ∈ subRunsAux b l → isKeep c = true ∨ c = '_' := by
  induction l with
  | nil => intro b c h; exact absurd h (by simp [subRunsAux])
  | cons x cs ih =>
    intro b c h
    unfold subRunsAux at h
    by_cases hx : isKeep x
    · rw [if_pos hx] at h
      rcases List.mem_cons.mp h with h1 | h2
      · exact Or.inl (h1 ▸ hx)
      · exact ih h2
    · rw [if_neg hx] at h
      by_cases hb : b
      · rw [if_pos hb] at h
        exact ih h
      · rw [if_neg hb] at h
        rcases List.mem_cons.mp h with h1 | h2
        · exact Or.inr h1
        · exact ih h2

theorem subRunsAux_true_head {l : List Char} :
    ∀ {c}, (subRunsAux true l).head? = some c → isKeep c = true := by
  induction l with
  | nil => intro c h; exact absurd h (by simp [subRunsAux])
  | cons x cs ih =>
    intro c h
    unfold subRunsAux at h
    by_cases hx : isKeep x
    · rw [if_pos hx] at h
      rw [List.head?_cons] at h
      injection h with h
      exact h ▸ hx
    · rw [if_neg hx, if_pos rfl] at h
      exact ih h

theorem subRunsAux_chain {l : List Char} :
    ∀ {b}, (subRunsAux b l).Chain' notUU := by
  induction l with
  | nil => intro b; simp [subRunsAux]
  | cons x cs ih =>
    intro b
    unfold subRunsAux
    by_cases hx : isKeep x
    · rw [if_pos hx]
      rw [List.chain'_cons']
      refine ⟨?_, ih⟩
      intro y _
      unfold notUU
      intro ⟨hxu, _⟩
      rw [hxu] at hx
      exact absurd hx (by decide)
    · rw [if_neg hx]
      by_cases hb : b
      · rw [if_pos hb]
        exact ih
      · rw [if_neg hb]
        rw [List.chain'_cons']
        refine ⟨?_, ih⟩
        intro y hy
        unfold notUU
        intro ⟨_, hyu⟩
        have := subRunsAux_true_head hy
        rw [hyu] at this
        exact absurd this (by decide)

theorem chain'_dropWhile {α : Type} {R : α → α → Prop} {p : α → Bool}
    {l : List α} (h : l.Chain' R) : (l.dropWhile p).Chain' R := by
  induction l with
  | nil => simp
  | cons x cs ih =>
    rw [List.dropWhile_cons]
    by_cases hx : p x
    · rw [if_pos hx]
      exact ih h.tail
    · rw [if_neg hx]
      exact h

theorem head?_dropWhile {α : Type} {p : α → Bool} {l : List α} :
    ∀ {c}, (l.dropWhile p).head? = some c → p c = false := by
  induction l with
  | nil => intro c h; exact absurd h (by simp)
  | cons x cs ih =>
    intro c h
    rw [List.dropWhile_cons] at h
    by_cases hx : p x
    · rw [if_pos hx] at h
      exact ih h
    · rw [if_neg hx] at h
      rw [List.head?_cons] at h
      injection h with h
      subst h
      exact Bool.eq_false_iff.mpr hx

theorem notUU_symm {a b : Char} (h : notUU a b) : notUU b a := by
  unfold notUU at h ⊢
  intro ⟨h1, h2⟩
  exact h ⟨h2, h1⟩

theorem chain'_reverse_notUU {l : List Char} (h : l.Chain' notUU) :
    l.reverse.Chain' notUU := by
  rw [List.chain'_reverse]
  exact h.imp (fun a b hab => notUU_symm hab)

theorem stripUnderscores_wf {l : List Char}
    (halpha : ∀ c ∈ l, isKeep c = true ∨ c = '_')
    (hchain : l.Chain' notUU) : wfNormalized (stripUnderscores l) := by
  unfold stripUnderscores
  set u : Char → Bool := fun c => decide (c = '_') with hu
  set A := l.dropWhile u with hA
  set B := A.reverse.dropWhile u with hB
  refine ⟨?_, ?_, ?_, ?_⟩
  · intro c hc
    apply halpha
    have h1 : c ∈ B := List.mem_reverse.mp hc
    have h2 : c ∈ A.reverse := (List.dropWhile_sublist u).mem h1
    have h3 : c ∈ A := List.mem_reverse.mp h2
    exact (List.dropWhile_sublist u).mem h3
  · intro c hc
    rw [List.head?_reverse] at hc
    have hBne : B ≠ [] := by
      intro hnil
      rw [hnil] at hc
      exact absurd hc (by simp)
    obtain ⟨t, ht⟩ := List.dropWhile_suffix (l := A.reverse) u
    have : B.getLast? = A.reverse.getLast? := by
      rw [← ht]
      exact (List.getLast?_append_of_ne_nil t hBne).symm
    rw [this, List.getLast?_reverse] at hc
    have := head?_dropWhile (l := l) (p := u) hc
    simpa [hu] using this
  · intro c hc
    rw [List.getLast?_reverse] at hc
    have := head?_dropWhile (l := A.reverse) (p := u) hc
    simpa [hu] using this
  · apply chain'_reverse_notUU
    apply chain'_dropWhile
    apply chain'_reverse_notUU
    exact chain'_dropWhile hchain

theorem collapseAux_id {l : List Char} (h : l.Chain' notUU) :
    collapseAux false l = l ∧
      (l.head? ≠ some '_' → collapseAux true l = l) := by
  induction l with
  | nil => simp [collapseAux]
  | cons c cs ih =>
    obtain ⟨ih1, ih2⟩ := ih h.tail
    by_cases hc : c = '_'
    · subst hc
      have hhd : cs.head? ≠ some '_' := by
        intro hcs
        cases cs with
        | nil => exact absurd hcs (by simp)
        | cons y ys =>
          rw [List.head?_cons] at hcs
          injection hcs with hy
          have := (List.chain'_cons.mp h).1
          exact this ⟨rfl, hy⟩
      constructor
      · unfold collapseAux
        rw [if_pos rfl, if_neg (by simp)]
        rw [ih2 hhd]
      · intro hne
        exact absurd rfl hne
    · constructor
      · unfold collapseAux
        rw [if_neg hc, ih1]
      · intro _
        unfold collapseAux
        rw [if_neg hc, ih1]

theorem subRunsAux_id {l : List Char}
    (halpha : ∀ c ∈ l, isKeep c = true ∨ c = '_')
    (hchain : l.Chain' notUU) :
    subRunsAux false l = l ∧
      (l.head? ≠ some '_' → subRunsAux true l = l) := by
  induction l with
  | nil => simp [subRunsAux]
  | cons c cs ih =>
    have halpha' : ∀ x ∈ cs, isKeep x = true ∨ x = '_' :=
      fun x hx => halpha x (List.mem_cons_of_mem _ hx)
    obtain ⟨ih1, ih2⟩ := ih halpha' hchain.tail
    rcases halpha c (List.mem_cons_self _ _) with hc | hc
    · constructor
      · unfold subRunsAux
        rw [if_pos hc, ih1]
      · intro _
        unfold subRunsAux
        rw [if_pos hc, ih1]
    · subst hc
      have hhd : cs.head? ≠ some '_' := by
        intro hcs
        cases cs with
        | nil => exact absurd hcs (by simp)
        | cons y ys =>
          rw [List.head?_cons] at hcs
          injection hcs with hy
          have := (List.chain'_cons.mp hchain).1
          exact this ⟨rfl, hy⟩
      constructor
      · unfold subRunsAux
        rw [if_neg (by rw [isKeep_underscore] ; exact Bool.false_ne_true),
          if_neg (by exact Bool.false_ne_true)]
        rw [ih2 hhd]
      · intro hne
        exact absurd rfl hne

theorem dropWhile_eq_self_of_head {α : Type} {p : α → Bool} {l : List α}
    (h : ∀ c, l.head? = some c → p c = false) : l.dropWhile p = l := by
  cases l with
  | nil => rfl
  | cons x cs =>
    rw [List.dropWhile_cons, if_neg]
    rw [h x (by rw [List.head?_cons])]
    exact Bool.false_ne_true

theorem stripUnderscores_id {l : List Char}
    (hhead : ∀ c, l.head? = some c → c ≠ '_')
    (hlast : ∀ c, l.getLast? = some c → c ≠ '_') :
    stripUnderscores l = l := by
  unfold stripUnderscores
  have h1 : l.dropWhile (fun c => decide (c = '_')) = l := by
    apply dropWhile_eq_self_of_head
    intro c hc
    simp [hhead c hc]
  rw [h1]
  have h2 : l.reverse.dropWhile (fun c => decide (c = '_')) = l.reverse := by
    apply dropWhile_eq_self_of_head
    intro c hc
    rw [List.head?_reverse] at hc
    simp [hlast c hc]
  rw [h2, List.reverse_reverse]

/-- C8. Text normalization is idempotent, and its output consists only of
lowercase alphanumeric characters and single interior underscores, with no
leading or trailing underscore. -/
theorem normalize_text_spec (s : String) :
    normalize_text (normalize_text s) = normalize_text s ∧
    wfNormalized (normalize_text s).toList := by
  by_cases hs : s = ""
  · subst hs
    exact ⟨rfl, by simp [normalize_text, wfNormalized]⟩
  · have halpha0 : ∀ c ∈ subRunsAux false (s.toList.map Char.toLower),
        isKeep c = true ∨ c = '_' := fun c hc => subRunsAux_alpha hc
    have hchain0 : (subRunsAux false (s.toList.map Char.toLower)).Chain' notUU :=
      subRunsAux_chain
    have hwf : wfNormalized (stripUnderscores
        (subRunsAux false (s.toList.map Char.toLower))) :=
      stripUnderscores_wf halpha0 hchain0
    set N := stripUnderscores (subRunsAux false (s.toList.map Char.toLower))
      with hN
    obtain ⟨halpha, hhead, hlast, hchain⟩ := hwf
    have hcollapse : collapseAux false N = N := (collapseAux_id hchain).1
    have hnorm : normalize_text s = String.mk N := by
      unfold normalize_text
      rw [if_neg hs, ← hN, hcollapse]
    have htoList : (String.mk N).toList = N := rfl
    by_cases hNnil : N = []
    · rw [hnorm, hNnil]
      exact ⟨rfl, by simp [wfNormalized, normalize_text]⟩
    · have hne : String.mk N ≠ "" := by
        intro hmk
        apply hNnil
        have : (String.mk N).data = ("" : String).data := by rw [hmk]
        simpa using this
      have hmap : N.map Char.toLower = N := by
        have := List.map_congr_left (l := N) (f := Char.toLower) (g := id)
          (fun c hc => toLower_id_of_wfChar (halpha c hc))
        rw [this, List.map_id]
      have hsub : subRunsAux false N = N := (subRunsAux_id halpha hchain).1
      have hstrip : stripUnderscores N = N := stripUnderscores_id hhead hlast
      constructor
      · rw [hnorm]
        unfold normalize_text
        rw [if_neg hne, htoList, hmap, hsub, hstrip, hcollapse]
      · rw [hnorm, htoList]
        exact ⟨halpha, hhead, hlast, hchain⟩

/-! ### `FeatureEngineer.create_extra_features` — price buckets
(scripts/feature_engineering.py) -/

/-- Polars comparison `col <= lit(cut)` where the cut point itself may be
null: null propagates from either side. -/
def kleeneLeOpt (v cut : Option ℚ) : Option Bool :=
  match v, cut with
  | some x, some q => some (decide (x ≤ q))
  | _, _ => none

/-- Polars `when(cond).then(k)` chaining: a null or false condition falls
through to the next branch / `otherwise`. -/
def polarsWhen {α : Type} (cond : Option Bool) (thenV elseV : α) : α :=
  if cond = some true then thenV else elseV

/-- The bucket chain of `create_extra_features`:
`when(price <= q20).then(0).when(price <= q40).then(1)
 .when(price <= q60).then(2).when(price <= q80).then(3).otherwise(4)`. -/
def priceBucket (q20 q40 q60 q80 : Option ℚ) (v : Option ℚ) : ℤ :=
  polarsWhen (kleeneLeOpt v q20) 0
    (polarsWhen (kleeneLeOpt v q40) 1
      (polarsWhen (kleeneLeOpt v q60) 2
        (polarsWhen (kleeneLeOpt v q80) 3 4)))

/-- The cut-point computation
`pl.col(price).quantile([0.2, 0.4, 0.6, 0.8], interpolation="nearest")`:
polars `Expr.quantile` requires a single scalar quantile, so the list
argument makes the expression raise when collected (and even a value per
quantile could not satisfy the 4-way unpack that follows); the call never
yields cut points. -/
def quantileListCall (train : List (Option ℚ)) :
    Except String (Option ℚ × Option ℚ × Option ℚ × Option ℚ) :=
  match train with
  | _ => Except.error "Expr.quantile expects a single scalar quantile"

/-- The bucket step of `create_extra_features`: compute the four train
quintile cut points inside a `try`, then add the bucket chain column to
both partitions; when the cut-point computation raises, the `except` branch
records a `failed` report and no bucket column is created (`none`). -/
def create_price_buckets (train test : List (Option ℚ)) :
    Option (List ℤ × List ℤ) :=
  match quantileListCall train with
  | Except.error _ => none
  | Except.ok (q20, q40, q60, q80) =>
    some (train.map (priceBucket q20 q40 q60 q80),
      test.map (priceBucket q20 q40 q60 q80))

/-- C10. The claim says every null-price row is assigned the highest bucket
(4) in both train and test via the otherwise-4 fall-through.  The written
`when/then` chain would indeed send every null row to 4, for any cut
points; but the chain is dead code: the cut-point call raises (a list is
passed where `Expr.quantile` takes one scalar), the `except` branch skips
the step, and no bucket column is ever created — in particular not for the
concrete input train `[10, null]`, test `[null]`. -/
theorem price_bucket_step_spec :
    (∀ train test : List (Option ℚ), create_price_buckets train test = none) ∧
    create_price_buckets [some 10, none] [none] = none ∧
    (∀ q20 q40 q60 q80 : Option ℚ, priceBucket q20 q40 q60 q80 none = 4) := by
  refine ⟨fun train test => rfl, rfl, ?_⟩
  intro q20 q40 q60 q80
  unfold priceBucket polarsWhen kleeneLeOpt
  cases q20 <;> cases q40 <;> cases q60 <;> cases q80 <;> rfl

end BookETL
